import Mathlib

/-!
Verification of the metric evaluation engine of a GitHub repository scorer
(`src/cli.ts`).  Texts (URLs, file names, file contents) are modelled as
`List Char`; JS numbers are modelled as `ℚ`, with `Option ℚ` where the
source can produce `NaN` (`none` models `NaN`); fallible remote calls are
modelled as `Except Unit` inputs to the evaluators; thrown-and-uncaught JS
exceptions are modelled as `Except.error` results.  Each evaluator is a pure
function of the remote environment it reads (rate-limit remaining count,
fetched commit map, fetched issue page, fetched file tree, clone contents)
and additionally reports the list of remote calls it issues after the
initial rate-limit read.
-/

/-- Lower-case a character list, modelling JS `toLowerCase` on ASCII text. -/
def lowerStr (s : List Char) : List Char := s.map Char.toLower

/-- Leftmost-match scanner: try `f` on every suffix of the input, left to
right, returning the first `some`.  This models the search phase of an
unanchored JS regex `match`/`test`/`exec`. -/
def firstSome {α : Type} (f : List Char → Option α) : List Char → Option α
  | [] => f []
  | c :: rest =>
    match f (c :: rest) with
    | some v => some v
    | none => firstSome f rest

theorem firstSome_eq_none_iff {α : Type} (f : List Char → Option α) (s : List Char) :
    firstSome f s = none ↔ ∀ i, f (s.drop i) = none := by
  induction s with
  | nil =>
    simp only [firstSome, List.drop_nil]
    constructor
    · intro h _; exact h
    · intro h; exact h 0
  | cons c rest ih =>
    simp only [firstSome]
    cases hf : f (c :: rest) with
    | some v =>
      simp only [reduceCtorEq, false_iff, not_forall]
      exact ⟨0, by simp [hf]⟩
    | none =>
      rw [ih]
      constructor
      · intro h i
        cases i with
        | zero => simpa using hf
        | succ j => simpa using h j
      · intro h i
        simpa using h (i + 1)

theorem firstSome_eq_some {α : Type} (f : List Char → Option α) (s : List Char)
    (v : α) (h : firstSome f s = some v) :
    ∃ i, f (s.drop i) = some v ∧ ∀ j, j < i → f (s.drop j) = none := by
  induction s with
  | nil =>
    refine ⟨0, by simpa [firstSome] using h, ?_⟩
    intro j hj; omega
  | cons c rest ih =>
    simp only [firstSome] at h
    cases hf : f (c :: rest) with
    | some w =>
      rw [hf] at h
      refine ⟨0, ?_, ?_⟩
      · simpa [hf] using h
      · intro j hj; omega
    | none =>
      rw [hf] at h
      obtain ⟨i, hi, hlt⟩ := ih h
      refine ⟨i + 1, by simpa using hi, ?_⟩
      intro j hj
      cases j with
      | zero => simpa using hf
      | succ k => simpa using hlt k (by omega)

/-! ## Bus Factor (`class BusFactor`) -/

/-- Insert one contributor into a list already sorted by commit count
descending, keeping it after every earlier entry with an equal or larger
count.  Together with `sortDesc` this models the stable JS
`sort((a, b) => b[1] - a[1])` on the `Map` entries (insertion order). -/
def insertDesc (x : String × ℕ) : List (String × ℕ) → List (String × ℕ)
  | [] => [x]
  | y :: ys => if y.2 < x.2 then x :: y :: ys else y :: insertDesc x ys

/-- Stable sort of the commit map entries by commit count descending,
modelling `Array.from(commitData.entries()).sort((a, b) => b[1] - a[1])`. -/
def sortDesc (l : List (String × ℕ)) : List (String × ℕ) :=
  l.foldl (fun acc x => insertDesc x acc) []

/-- The `while (commitSum < totalCommits * 0.5)` loop of
`calculateBusFactor`: consume sorted contributors until the running sum
reaches the target, returning how many were consumed.  `none` models the
TypeError the source would throw on reading `sortedContributors[i]` past
the end of the array (unreachable when the target is half the total). -/
def busLoop (target : ℚ) : List ℕ → ℚ → ℕ → Option ℕ
  | [], s, i => if s < target then none else some i
  | c :: rest, s, i =>
    if s < target then busLoop target rest (s + (c : ℚ)) (i + 1) else some i

/-- Embedding of `BusFactor.calculateBusFactor`.  The result is `some` of
the JS number returned, `none` when the source produces `NaN` (the `0/0`
division on an empty contributor list) or throws.  Note the source ends
with `Math.min(adjustedBusFactor)`: `Math.min` of a single argument is that
argument, so no upper clamp is applied. -/
def calculateBusFactor (commitData : List (String × ℕ)) : Option ℚ :=
  let totalCommits : ℕ := (commitData.map (fun p => p.2)).sum
  let sortedContributors := sortDesc commitData
  match busLoop ((totalCommits : ℚ) * (1 / 2)) (sortedContributors.map (fun p => p.2)) 0 0 with
  | none => none
  | some i =>
    if sortedContributors.length = 0 then none
    else some (((i : ℚ) / (sortedContributors.length : ℚ)) * 2)

/-! ## URL resolution (`BusFactor.getRepoData`, `Correctness.extractRepoInfo`,
`RampUp.extractOwnerRepo`) -/

/-- The literal prefix of the regex
`https:\/\/github\.com\/([^/]+)\/([^/]+)` shared by `getRepoData` and
`extractRepoInfo`. -/
def ghFull : List Char := "https://github.com/".toList

/-- The literal prefix of the RampUp regex
`github\.com\/([^\/]+)\/([^\/]+)`, which omits the scheme. -/
def ghBare : List Char := "github.com/".toList

/-- Attempt the repository-URL pattern at the head of `l`: the literal
prefix `pre`, then a nonempty maximal run of non-slash characters (greedy
`[^/]+`), a literal slash, and a second nonempty maximal non-slash run. -/
def urlCheckWith (pre : List Char) (l : List Char) : Option (List Char × List Char) :=
  if l.take pre.length = pre then
    let rest := l.drop pre.length
    let o := rest.takeWhile (fun c => c ≠ '/')
    if o = [] then none
    else if (rest.drop o.length).head? = some '/' then
      let r := ((rest.drop o.length).tail).takeWhile (fun c => c ≠ '/')
      if r = [] then none else some (o, r)
    else none
  else none

/-- Embedding of the unanchored `url.match(regex)` of
`BusFactor.getRepoData` and `Correctness.extractRepoInfo`: leftmost match
of the pattern over the input, capturing the two non-slash runs. -/
def jsGithubUrlMatch (s : List Char) : Option (List Char × List Char) :=
  firstSome (urlCheckWith ghFull) s

/-- Embedding of `RampUp.extractOwnerRepo`, whose regex omits `https://`. -/
def rampUpUrlMatch (s : List Char) : Option (List Char × List Char) :=
  firstSome (urlCheckWith ghBare) s

/-- Embedding of `BusFactor.evaluate`: read the rate limit (its `remaining`
field is the first argument), short-circuit to `-1` when it is zero, parse
the URL (an invalid URL throws, uncaught: `Except.error`), fetch the commit
map (`commitFetch` is the outcome of `getCommitData`; a fetch failure
propagates, uncaught), then score it.  The second component lists the
remote calls issued after the rate-limit read. -/
def busFactorEvaluate (remaining : ℕ) (url : List Char)
    (commitFetch : Except Unit (List (String × ℕ))) :
    Except Unit (Option ℚ) × List String :=
  if remaining = 0 then (Except.ok (some (-1)), [])
  else
    match jsGithubUrlMatch url with
    | none => (Except.error (), [])
    | some _ =>
      match commitFetch with
      | Except.error _ => (Except.error (), ["listCommits"])
      | Except.ok data => (Except.ok (calculateBusFactor data), ["listCommits"])

/-- C1: the claim says the Bus Factor score is `min(2 * k / n, bound)` and
never exceeds 1.  The source computes `Math.min(adjustedBusFactor)` with a
single argument, which is the identity, so with one contributor holding all
commits (`k = n = 1`) the returned score is `2`, above `1`. -/
theorem calculateBusFactor_single_contributor_exceeds_one :
    calculateBusFactor [("a", 10)] = some 2 ∧ ¬ ((2 : ℚ) ≤ 1) := by
  constructor
  · norm_num [calculateBusFactor, sortDesc, insertDesc, busLoop]
  · norm_num

/-- C2: the claim says zero commits short-circuit to `-1`.  The source has
no such guard: with an empty commit map the loop consumes nothing and the
code divides `0 / sortedContributors.length = 0 / 0`, returning `NaN`
(modelled `none`), not `-1`; the full `evaluate` likewise returns `NaN`. -/
theorem calculateBusFactor_zero_commits_is_nan :
    calculateBusFactor [] = none ∧
    busFactorEvaluate 5000 ("https://github.com/o/r".toList) (Except.ok []) =
      (Except.ok none, ["listCommits"]) ∧
    (Except.ok (none : Option ℚ) : Except Unit (Option ℚ)) ≠ Except.ok (some (-1)) := by
  have hbf : calculateBusFactor [] = none := by
    norm_num [calculateBusFactor, sortDesc, busLoop]
  have hurl : jsGithubUrlMatch ("https://github.com/o/r".toList) =
      some ("o".toList, "r".toList) := by rfl
  refine ⟨hbf, ?_, ?_⟩
  · simp only [busFactorEvaluate, hurl, hbf]
    norm_num
  · intro h
    exact Option.noConfusion (Except.ok.inj h)

/-! ## Correctness (`class Correctness`) -/

/-- One issue from the bug-labeled issue page; only its `state` field is
read by the source. -/
structure Issue where
  state : String
deriving DecidableEq

/-- The count `data.filter(issue => issue.state === 'open').length` from
`fetchIssuesData`. -/
def openBugCount (data : List Issue) : ℕ :=
  (data.filter (fun iss => iss.state = "open")).length

/-- Embedding of `Correctness.calculateCorrectness`: the argument is the
outcome of `fetchIssuesData` (a page of bug-labeled issues across all
states, or a fetch failure).  A failure is caught and scored `-1`; an empty
page scores `1`; otherwise the score is `1 - openBugIssues / totalIssues`. -/
def calculateCorrectness (issuesFetch : Except Unit (List Issue)) : ℚ :=
  match issuesFetch with
  | Except.error _ => -1
  | Except.ok data =>
    if data.length = 0 then 1
    else 1 - ((openBugCount data : ℚ) / (data.length : ℚ))

/-- Embedding of `Correctness.evaluate`: read the rate limit and
short-circuit to `-1` when `remaining` is zero; an invalid URL makes
`fetchIssuesData` throw before any remote call, caught by
`calculateCorrectness` into `-1`; otherwise the issue page is fetched and
scored.  The second component lists remote calls issued after the
rate-limit read. -/
def correctnessEvaluate (remaining : ℕ) (url : List Char)
    (issuesFetch : Except Unit (List Issue)) : Except Unit ℚ × List String :=
  if remaining = 0 then (Except.ok (-1), [])
  else
    match jsGithubUrlMatch url with
    | none => (Except.ok (-1), [])
    | some _ => (Except.ok (calculateCorrectness issuesFetch), ["listIssues"])

/-! ## Ramp-Up (`class RampUp`) -/

/-- A directory listing as walked by `printRepoStructure`, encoded as a
cons-list of entries.  `dirCons` is a subdirectory whose recursive
`getContent` call succeeds with the given child listing; `dirFailCons` is a
subdirectory whose recursive call fails (the error is caught inside that
recursive invocation). -/
inductive RTree where
  | nil : RTree
  | fileCons (name : List Char) (rest : RTree) : RTree
  | dirCons (name : List Char) (children : RTree) (rest : RTree) : RTree
  | dirFailCons (name : List Char) (rest : RTree) : RTree

/-- The five checklist term names of the `Metrics` field of `RampUp`. -/
def checklistNames : Fin 5 → List Char
  | 0 => "example".toList
  | 1 => "test".toList
  | 2 => "readme".toList
  | 3 => "doc".toList
  | 4 => "makefile".toList

/-- Which checklist terms carry `fileType: 'file'` (the rest are
`'either'`). -/
def checklistFileOnly : Fin 5 → Bool
  | 0 => false
  | 1 => false
  | 2 => true
  | 3 => false
  | 4 => true

/-- JS `String.prototype.includes`: `pat` occurs contiguously in `s`. -/
def includesSub (pat s : List Char) : Bool :=
  (List.range (s.length + 1)).any (fun i => (s.drop i).take pat.length == pat)

/-- The set of checklist terms one tree entry matches:
`(item.type === metric.fileType || metric.fileType === 'either') &&
item.name.toLowerCase().includes(metric.name)`. -/
def entryTerms (isFile : Bool) (name : List Char) : Finset (Fin 5) :=
  Finset.univ.filter
    (fun t => ((isFile || !(checklistFileOnly t)) &&
      includesSub (checklistNames t) (lowerStr name)) = true)

/-- The accumulated `found` flags after walking a listing: the union of the
terms matched by each entry and, for successfully listed subdirectories,
by their recursive walk. -/
def repoFound : RTree → Finset (Fin 5)
  | .nil => ∅
  | .fileCons n rest => entryTerms true n ∪ repoFound rest
  | .dirCons n ch rest => entryTerms false n ∪ repoFound ch ∪ repoFound rest
  | .dirFailCons n rest => entryTerms false n ∪ repoFound rest

/-- Number of recursive `getContent` calls issued while walking a listing
(one per subdirectory, whether or not its listing succeeds). -/
def repoCalls : RTree → ℕ
  | .nil => 0
  | .fileCons _ rest => repoCalls rest
  | .dirCons _ ch rest => 1 + repoCalls ch + repoCalls rest
  | .dirFailCons _ rest => 1 + repoCalls rest

/-- Embedding of `RampUp.printRepoStructure` applied at the repository
root: the root `getContent` outcome is the argument (a failure is caught
and leaves every `found` flag false).  Returns the score
`totalFound / totalMetrics` together with the number of `getContent` calls
issued. -/
def printRepoStructure (root : Except Unit RTree) : ℚ × ℕ :=
  match root with
  | Except.error _ => (((∅ : Finset (Fin 5)).card : ℚ) / 5, 1)
  | Except.ok t => (((repoFound t).card : ℚ) / 5, 1 + repoCalls t)

/-- Embedding of `RampUp.evaluate`: no rate-limit read happens (the
`remaining` argument is ignored by the source); an invalid URL throws
inside the `try` of `printRepoStructure`, is caught there before any
remote call, and the score of an all-false checklist is returned. -/
def rampUpEvaluate (_remaining : ℕ) (url : List Char) (root : Except Unit RTree) :
    Except Unit ℚ × ℕ :=
  match rampUpUrlMatch url with
  | none => (Except.ok (((∅ : Finset (Fin 5)).card : ℚ) / 5), 0)
  | some _ =>
    match root with
    | Except.error _ => (Except.ok (((∅ : Finset (Fin 5)).card : ℚ) / 5), 1)
    | Except.ok t => (Except.ok (((repoFound t).card : ℚ) / 5), 1 + repoCalls t)

/-- Concatenation of two sibling listings, used to state what adding a
tree entry does to the score. -/
def RTree.append : RTree → RTree → RTree
  | .nil, t => t
  | .fileCons n r, t => .fileCons n (RTree.append r t)
  | .dirCons n c r, t => .dirCons n c (RTree.append r t)
  | .dirFailCons n r, t => .dirFailCons n (RTree.append r t)

/-- Every entry visited by the walk, as a pair of an is-file flag and a
name: the entries of the listing itself plus, recursively, those of
successfully listed subdirectories. -/
def reach : RTree → List (Bool × List Char)
  | .nil => []
  | .fileCons n r => (true, n) :: reach r
  | .dirCons n c r => (false, n) :: (reach c ++ reach r)
  | .dirFailCons n r => (false, n) :: reach r

theorem repoFound_eq_reach (t : RTree) (τ : Fin 5) :
    τ ∈ repoFound t ↔ ∃ p ∈ reach t, τ ∈ entryTerms p.1 p.2 := by
  induction t with
  | nil => simp [repoFound, reach]
  | fileCons n r ih => simp [repoFound, reach, ih]
  | dirCons n c r ihc ihr =>
    simp only [repoFound, reach, Finset.mem_union, ihc, ihr, List.mem_cons,
      List.mem_append]
    constructor
    · rintro ((h | ⟨p, hp, hm⟩) | ⟨p, hp, hm⟩)
      · exact ⟨(false, n), Or.inl rfl, h⟩
      · exact ⟨p, Or.inr (Or.inl hp), hm⟩
      · exact ⟨p, Or.inr (Or.inr hp), hm⟩
    · rintro ⟨p, (rfl | hp | hp), hm⟩
      · exact Or.inl (Or.inl hm)
      · exact Or.inl (Or.inr ⟨p, hp, hm⟩)
      · exact Or.inr ⟨p, hp, hm⟩
  | dirFailCons n r ih =>
    simp [repoFound, reach, ih]

theorem repoFound_append (t u : RTree) :
    repoFound (RTree.append t u) = repoFound t ∪ repoFound u := by
  induction t with
  | nil => simp [RTree.append, repoFound]
  | fileCons n r ih => simp [RTree.append, repoFound, ih, Finset.union_assoc]
  | dirCons n c r ihc ihr => simp [RTree.append, repoFound, ihr, Finset.union_assoc]
  | dirFailCons n r ih => simp [RTree.append, repoFound, ih, Finset.union_assoc]

/-- C7: the Ramp-Up score is the number of distinct checklist terms matched
by some visited entry, divided by the checklist size 5; it lies in
`[0, 1]`; and appending further entries to the root listing never lowers
it. -/
theorem rampUp_score_spec (root : Except Unit RTree) (t extra : RTree) :
    (0 ≤ (printRepoStructure root).1 ∧ (printRepoStructure root).1 ≤ 1) ∧
    (printRepoStructure (Except.ok t)).1 =
      ((Finset.univ.filter
        (fun τ => ∃ p ∈ reach t, τ ∈ entryTerms p.1 p.2)).card : ℚ) / 5 ∧
    (printRepoStructure (Except.ok t)).1 ≤
      (printRepoStructure (Except.ok (RTree.append t extra))).1 := by
  have hcard : ∀ s : Finset (Fin 5), (s.card : ℚ) ≤ 5 := by
    intro s
    have h : s.card ≤ 5 := by simpa using Finset.card_le_univ s
    exact_mod_cast h
  refine ⟨⟨?_, ?_⟩, ?_, ?_⟩
  · cases root with
    | error e => simp [printRepoStructure]
    | ok u => simp only [printRepoStructure]; positivity
  · cases root with
    | error e => simp [printRepoStructure]
    | ok u =>
      simp only [printRepoStructure]
      rw [div_le_one (by norm_num)]
      exact hcard _
  · simp only [printRepoStructure]
    congr 1
    norm_cast
    congr 1
    ext τ
    simp [repoFound_eq_reach]
  · simp only [printRepoStructure]
    have hsub : repoFound t ⊆ repoFound (RTree.append t extra) := by
      rw [repoFound_append]; exact Finset.subset_union_left
    have hc : ((repoFound t).card : ℚ) ≤ ((repoFound (RTree.append t extra)).card : ℚ) := by
      exact_mod_cast Finset.card_le_card hsub
    gcongr

/-! ## License (`class License`) -/

/-- JS regex line terminators, which an unescaped `.` does not match. -/
def isLineTerm (c : Char) : Bool :=
  c = '\n' || c = '\r' || c.val = 0x2028 || c.val = 0x2029

/-- One pattern character of the license alternation regex: the identifiers
are joined verbatim into `new RegExp(..., 'i')`, so a literal `.` in an
identifier becomes a wildcard for any non-line-terminator character, and
letters match case-insensitively. -/
def patCharOk (p c : Char) : Bool :=
  (p = '.' && !(isLineTerm c)) || p.toLower = c.toLower

/-- The fixed allow-list `compatibleLicenses` of `checkLicenseCompatibility`. -/
def compatibleLicenses : List (List Char) :=
  ["LGPL-2.1".toList, "LGPL-2.1-only".toList, "LGPL-2.1-or-later".toList,
   "GPL-2.0".toList, "GPL-2.0-only".toList, "GPL-2.0-or-later".toList,
   "MIT".toList, "BSD-2-Clause".toList, "BSD-3-Clause".toList,
   "Apache-2.0".toList, "MPL-1.1".toList]

/-- Match one alternation branch at the head of the text. -/
def patMatchesAt : List Char → List Char → Bool
  | [], _ => true
  | _ :: _, [] => false
  | p :: ps, c :: cs => patCharOk p c && patMatchesAt ps cs

/-- Embedding of `licenseRegex.test(licenseText)`: some branch of the
alternation matches at some position of the text. -/
def licenseRegexHit (s : List Char) : Bool :=
  (firstSome
    (fun l => if compatibleLicenses.any (fun p => patMatchesAt p l) then some () else none)
    s).isSome

/-- Embedding of `License.checkLicenseCompatibility`. -/
def checkLicenseCompatibility (licenseText : List Char) : ℚ :=
  if licenseRegexHit licenseText then 1 else 0

/-- JS `\s` on the character range the repository can encounter (ASCII
whitespace and no-break space). -/
def jsIsSpace (c : Char) : Bool :=
  c = ' ' || c = '\t' || c = '\n' || c = '\r' || c = '\x0b' || c = '\x0c' || c = '\xa0'

/-- Case-insensitive check that the lower-case `pat` begins the text. -/
def lowerBeginsWith (pat s : List Char) : Bool :=
  (s.take pat.length).map Char.toLower == pat

/-- Attempt the README heading regex `##\s*(Licence|Legal)` at the head of
the text (the trailing `(\s|\S)*` of the source regex then consumes
everything to the end of the file).  Note the source spells the first
keyword `Licence`. -/
def headingCheck (l : List Char) : Bool :=
  match l with
  | c1 :: c2 :: rest =>
    c1 = '#' && c2 = '#' &&
      (lowerBeginsWith "licence".toList (rest.dropWhile jsIsSpace) ||
        lowerBeginsWith "legal".toList (rest.dropWhile jsIsSpace))
  | _ => false

/-- Embedding of the README part of `License.extractLicenseInfo`:
`readmeContent.match(/##\s*(Licence|Legal)(\s|\S)*/i)`, whose `match[0]` is
the text from the leftmost matching heading to the end of the file. -/
def extractReadmeLicenseSection (content : List Char) : Option (List Char) :=
  firstSome (fun l => if headingCheck l then some l else none) content

/-- The README file-name regex `/^readme\.(md|txt)?$/i` (note the mandatory
dot: a file named plain `README` does not match). -/
def readmeNameMatches (name : List Char) : Bool :=
  lowerStr name == "readme.".toList || lowerStr name == "readme.md".toList ||
    lowerStr name == "readme.txt".toList

/-- The LICENSE file-name regex `/^licen[sc]e(\..*)?$/i`; the `.*` cannot
cross a line terminator. -/
def licenseNameMatches (name : List Char) : Bool :=
  lowerStr name == "license".toList || lowerStr name == "licence".toList ||
    ((lowerStr name).take 8 == "license.".toList &&
      ((lowerStr name).drop 8).all (fun c => !(isLineTerm c))) ||
    ((lowerStr name).take 8 == "licence.".toList &&
      ((lowerStr name).drop 8).all (fun c => !(isLineTerm c)))

/-- The root of the shallow clone: file names with their contents, in
directory order as `readdirSync` returns them. -/
structure CloneDir where
  files : List (List Char × List Char)

/-- Embedding of `License.extractLicenseInfo`: the license section of the
first README-named file, and the entire content of the first LICENSE-named
file, joined by a newline when both exist. -/
def extractLicenseInfo (dir : CloneDir) : Option (List Char) :=
  let fromReadme : Option (List Char) :=
    match dir.files.filter (fun f => readmeNameMatches f.1) with
    | [] => none
    | f :: _ => extractReadmeLicenseSection f.2
  match dir.files.filter (fun f => licenseNameMatches f.1) with
  | [] => fromReadme
  | f :: _ =>
    match fromReadme with
    | some s => some (s ++ '\n' :: f.2)
    | none => some f.2

/-- Embedding of `License.evaluate`: no rate-limit read happens (the
`remaining` argument is ignored by the source); the clone is always
attempted; a clone failure is caught and scored `-1`; a missing or empty
(JS-falsy) extraction result is scored `-1`; otherwise the extracted text
is tested against the allow-list. -/
def licenseEvaluate (_remaining : ℕ) (clone : Except Unit CloneDir) :
    Except Unit ℚ × List String :=
  match clone with
  | Except.error _ => (Except.ok (-1), ["clone"])
  | Except.ok dir =>
    match extractLicenseInfo dir with
    | none => (Except.ok (-1), ["clone"])
    | some s => (Except.ok (if s = [] then -1 else checkLicenseCompatibility s), ["clone"])

/-! ## Net Score (`class NetScore`) -/

/-- The fields of `class NetScore`, with their initializers. -/
structure NetScore where
  url : List Char
  weights : List ℚ := [19.84, 7.47, 30.69, 42.0]
  busFactor : ℚ := -1
  correctness : ℚ := -1
  maintainability : ℚ := -1
  rampUpTime : ℚ := -1
  license : Bool := false

/-- Embedding of `NetScore.evaluate`, which is unimplemented in the source
and returns the sentinel unconditionally. -/
def NetScore.evaluate (_ns : NetScore) : ℚ := -1

/-- C9: the Net Score aggregator is a deterministic pure function — any two
evaluations agree — and in the observed source it always returns the
sentinel `-1` regardless of the URL and of every component score field. -/
theorem netScore_evaluate_constant (ns₁ ns₂ : NetScore) :
    NetScore.evaluate ns₁ = -1 ∧ NetScore.evaluate ns₁ = NetScore.evaluate ns₂ :=
  ⟨rfl, rfl⟩

/-! ## Generic scanning lemmas used for the regex embeddings -/

theorem takeWhile_append_stop {α : Type} (p : α → Bool) (xs : List α) (y : α)
    (ys : List α) (hxs : ∀ c ∈ xs, p c = true) (hy : p y = false) :
    (xs ++ y :: ys).takeWhile p = xs := by
  induction xs with
  | nil => simp [List.takeWhile, hy]
  | cons x xs ih =>
    have hx : p x = true := hxs x (by simp)
    simp only [List.cons_append, List.takeWhile_cons, hx, if_true]
    rw [ih (fun c hc => hxs c (by simp [hc]))]

theorem takeWhile_append_all {α : Type} (p : α → Bool) (xs ys : List α)
    (hxs : ∀ c ∈ xs, p c = true) :
    (xs ++ ys).takeWhile p = xs ++ ys.takeWhile p := by
  induction xs with
  | nil => simp
  | cons x xs ih =>
    have hx : p x = true := hxs x (by simp)
    simp only [List.cons_append, List.takeWhile_cons, hx, if_true]
    rw [ih (fun c hc => hxs c (by simp [hc]))]

theorem dropWhile_append_all {α : Type} (p : α → Bool) (xs ys : List α)
    (hxs : ∀ c ∈ xs, p c = true) :
    (xs ++ ys).dropWhile p = ys.dropWhile p := by
  induction xs with
  | nil => simp
  | cons x xs ih =>
    have hx : p x = true := hxs x (by simp)
    simp only [List.cons_append, List.dropWhile_cons, hx, if_true]
    exact ih (fun c hc => hxs c (by simp [hc]))

theorem drop_takeWhile_length {α : Type} (p : α → Bool) (l : List α) :
    l.drop (l.takeWhile p).length = l.dropWhile p := by
  induction l with
  | nil => simp
  | cons x xs ih =>
    by_cases hx : p x <;>
      simp [List.takeWhile_cons, List.dropWhile_cons, hx, ih]

theorem take_takeWhile_length {α : Type} (p : α → Bool) (l : List α) :
    l.take (l.takeWhile p).length = l.takeWhile p := by
  induction l with
  | nil => simp
  | cons x xs ih =>
    by_cases hx : p x <;>
      simp [List.takeWhile_cons, hx, ih]

/-! ## Characterization of the URL resolution pattern (claim C10) -/

/-- The claim-level reading of the URL regex: the text is, at this suffix,
the literal prefix followed by a nonempty slash-free owner segment, a
slash, a nonempty slash-free repo segment, and arbitrary remaining text. -/
def urlPatternIn (pre l : List Char) : Prop :=
  ∃ o r rest, o ≠ [] ∧ r ≠ [] ∧ (∀ c ∈ o, c ≠ '/') ∧ (∀ c ∈ r, c ≠ '/') ∧
    l = pre ++ o ++ '/' :: (r ++ rest)

theorem urlCheckWith_isSome_iff (pre l : List Char) :
    (urlCheckWith pre l).isSome = true ↔ urlPatternIn pre l := by
  constructor
  · intro h
    simp only [urlCheckWith] at h
    by_cases h1 : l.take pre.length = pre
    · rw [if_pos h1] at h
      by_cases h2 : (l.drop pre.length).takeWhile (fun c => c ≠ '/') = []
      · rw [if_pos h2] at h; simp at h
      · rw [if_neg h2] at h
        by_cases hh : ((l.drop pre.length).drop
            ((l.drop pre.length).takeWhile (fun c => c ≠ '/')).length).head? = some '/'
        · rw [if_pos hh] at h
          by_cases h3 : (((l.drop pre.length).drop
              ((l.drop pre.length).takeWhile (fun c => c ≠ '/')).length).tail).takeWhile
                (fun c => c ≠ '/') = []
          · rw [if_pos h3] at h; simp at h
          · set rest := l.drop pre.length with hrestdef
            set o := rest.takeWhile (fun c => c ≠ '/') with hodef
            set rest2 := rest.drop o.length with hrest2def
            set r := rest2.tail.takeWhile (fun c => c ≠ '/') with hrdef
            refine ⟨o, r, rest2.tail.dropWhile (fun c => c ≠ '/'), h2, h3, ?_, ?_, ?_⟩
            · intro x hx
              have := List.mem_takeWhile_imp hx
              simpa using this
            · intro x hx
              have := List.mem_takeWhile_imp hx
              simpa using this
            · have hl : l = pre ++ rest := by
                conv_lhs => rw [← List.take_append_drop pre.length l]
                rw [h1, hrestdef]
              have hrest2 : rest2 = '/' :: rest2.tail := by
                cases hr2 : rest2 with
                | nil => rw [hr2] at hh; simp at hh
                | cons a t =>
                  rw [hr2] at hh
                  simp only [List.head?_cons, Option.some.injEq] at hh
                  rw [hh]; simp
              have hrest : rest = o ++ rest2 := by
                rw [hrest2def, hodef]
                conv_lhs => rw [← List.take_append_drop
                  (rest.takeWhile (fun c => c ≠ '/')).length rest]
                rw [take_takeWhile_length]
              have htail : rest2.tail = r ++ rest2.tail.dropWhile (fun c => c ≠ '/') := by
                rw [hrdef]
                exact (List.takeWhile_append_dropWhile _ _).symm
              rw [hl, hrest, hrest2]
              simp only [List.tail_cons]
              rw [← htail]
              simp [List.append_assoc]
        · rw [if_neg hh] at h; simp at h
    · rw [if_neg h1] at h; simp at h
  · rintro ⟨o, r, rest, ho, hr, hos, hrs, rfl⟩
    have hos' : ∀ c ∈ o, (fun c => decide (c ≠ '/')) c = true := by
      intro c hc; simpa using hos c hc
    have hrs' : ∀ c ∈ r, (fun c => decide (c ≠ '/')) c = true := by
      intro c hc; simpa using hrs c hc
    have h1 : (pre ++ o ++ '/' :: (r ++ rest)).take pre.length = pre := by
      rw [List.append_assoc]; exact List.take_left _ _
    have h2 : (pre ++ o ++ '/' :: (r ++ rest)).drop pre.length =
        o ++ '/' :: (r ++ rest) := by
      rw [List.append_assoc]; exact List.drop_left _ _
    have htw : (o ++ '/' :: (r ++ rest)).takeWhile (fun c => c ≠ '/') = o :=
      takeWhile_append_stop _ _ _ _ hos' (by simp)
    have hdrop : (o ++ '/' :: (r ++ rest)).drop o.length = '/' :: (r ++ rest) :=
      List.drop_left _ _
    have htw2 : (r ++ rest).takeWhile (fun c => c ≠ '/') =
        r ++ rest.takeWhile (fun c => c ≠ '/') :=
      takeWhile_append_all _ _ _ hrs'
    simp only [urlCheckWith, h2, htw, hdrop]
    rw [if_pos h1, if_neg ho]
    simp only [List.head?_cons, if_pos rfl, List.tail_cons, htw2]
    rw [if_neg (fun hcon => hr (List.append_eq_nil.mp hcon).1)]
    simp

theorem urlCheckWith_eq_some (pre l o r : List Char)
    (h : urlCheckWith pre l = some (o, r)) :
    o = (l.drop pre.length).takeWhile (fun c => c ≠ '/') ∧
    r = (((l.drop pre.length).drop o.length).tail).takeWhile (fun c => c ≠ '/') := by
  simp only [urlCheckWith] at h
  split_ifs at h
  rw [Option.some.injEq, Prod.mk.injEq] at h
  obtain ⟨h5, h6⟩ := h
  refine ⟨h5.symm, ?_⟩
  rw [← h6, ← h5]

/-- C10: URL resolution (`getRepoData` and `extractRepoInfo` share the
regex) is an unanchored substring match: it succeeds exactly when some
suffix of the input carries the literal prefix `https://github.com/`
followed by two nonempty slash-delimited segments, the error arises only
when no such substring occurs, and on success the captured owner and repo
are the first two maximal non-slash runs after the leftmost occurrence, so
extra trailing path segments are ignored. -/
theorem url_resolution_spec (s : List Char) :
    ((jsGithubUrlMatch s).isSome = true ↔ ∃ i, urlPatternIn ghFull (s.drop i)) ∧
    (jsGithubUrlMatch s = none ↔ ∀ i, ¬ urlPatternIn ghFull (s.drop i)) ∧
    (∀ o r, jsGithubUrlMatch s = some (o, r) →
      ∃ i, urlPatternIn ghFull (s.drop i) ∧
        (∀ j, j < i → ¬ urlPatternIn ghFull (s.drop j)) ∧
        o = (s.drop (i + ghFull.length)).takeWhile (fun c => c ≠ '/') ∧
        r = (((s.drop (i + ghFull.length)).drop o.length).tail).takeWhile
          (fun c => c ≠ '/')) := by
  have hnone : jsGithubUrlMatch s = none ↔ ∀ i, ¬ urlPatternIn ghFull (s.drop i) := by
    rw [jsGithubUrlMatch, firstSome_eq_none_iff]
    constructor
    · intro h i hpat
      have := (urlCheckWith_isSome_iff ghFull (s.drop i)).mpr hpat
      rw [h i] at this
      simp at this
    · intro h i
      by_contra hne
      exact h i ((urlCheckWith_isSome_iff ghFull (s.drop i)).mp
        (by simpa [Option.isSome_iff_ne_none] using hne))
  refine ⟨?_, hnone, ?_⟩
  · rw [Option.isSome_iff_ne_none, Ne, hnone]
    push_neg
    rfl
  · intro o r h
    obtain ⟨i, hi, hbefore⟩ := firstSome_eq_some _ _ _ h
    have hpat : urlPatternIn ghFull (s.drop i) :=
      (urlCheckWith_isSome_iff ghFull (s.drop i)).mp (by simp [hi])
    obtain ⟨ho, hr⟩ := urlCheckWith_eq_some _ _ _ _ hi
    refine ⟨i, hpat, ?_, ?_, ?_⟩
    · intro j hj hpatj
      have := (urlCheckWith_isSome_iff ghFull (s.drop j)).mpr hpatj
      rw [hbefore j hj] at this
      simp at this
    · rw [ho, List.drop_drop]
    · rw [hr]
      simp only [List.drop_drop, Nat.add_comm, Nat.add_assoc, Nat.add_left_comm]

/-- Witness for C10 at a URL with extra trailing path segments. -/
theorem url_resolution_spec_witness :
    ∃ i, urlPatternIn ghFull
      (("See https://github.com/owner/repo/tree/main".toList).drop i) :=
  (url_resolution_spec _).1.mp (by rfl)

/-! ## Characterization of the README heading extraction (claims C8, C3) -/

/-- The two heading keywords of the source regex, lower-cased. -/
def headingKw : List (List Char) := ["licence".toList, "legal".toList]

/-- Claim-level reading of a heading match at the head of a suffix: two
hash marks, a run of whitespace, then one of the keywords (matched
case-insensitively), then arbitrary text. -/
def headingAtIn (kws : List (List Char)) (l : List Char) : Prop :=
  ∃ ws w rest kw, kw ∈ kws ∧ (∀ c ∈ ws, jsIsSpace c = true) ∧
    w.map Char.toLower = kw ∧ l = '#' :: '#' :: (ws ++ w ++ rest)

theorem lowerBeginsWith_iff (pat s : List Char) :
    lowerBeginsWith pat s = true ↔
      ∃ w rest, w.map Char.toLower = pat ∧ s = w ++ rest := by
  unfold lowerBeginsWith
  rw [beq_iff_eq]
  constructor
  · intro h
    exact ⟨s.take pat.length, s.drop pat.length, h,
      (List.take_append_drop _ _).symm⟩
  · rintro ⟨w, rest, hmap, rfl⟩
    have hlen : w.length = pat.length := by
      rw [← hmap, List.length_map]
    rw [← hlen, List.take_left]
    exact hmap

theorem jsIsSpace_toLower (c : Char) (h : jsIsSpace c = true) : c.toLower = c := by
  have hd : c = ' ' ∨ c = '\t' ∨ c = '\n' ∨ c = '\x0d' ∨ c = '\x0b' ∨
      c = '\x0c' ∨ c = '\xa0' := by
    simpa [jsIsSpace, Bool.or_eq_true, decide_eq_true_eq, or_assoc] using h
  rcases hd with rfl|rfl|rfl|rfl|rfl|rfl|rfl <;> decide

theorem headingCheck_iff (l : List Char) :
    headingCheck l = true ↔ headingAtIn headingKw l := by
  constructor
  · intro h
    cases l with
    | nil => simp [headingCheck] at h
    | cons c1 l1 =>
      cases l1 with
      | nil => simp [headingCheck] at h
      | cons c2 rest =>
        simp only [headingCheck, Bool.and_eq_true, Bool.or_eq_true,
          decide_eq_true_eq] at h
        obtain ⟨⟨rfl, rfl⟩, hkw⟩ := h
        have hsplit : rest = rest.takeWhile jsIsSpace ++ rest.dropWhile jsIsSpace :=
          (List.takeWhile_append_dropWhile _ _).symm
        have hws : ∀ c ∈ rest.takeWhile jsIsSpace, jsIsSpace c = true :=
          fun c hc => List.mem_takeWhile_imp hc
        rcases hkw with hkw | hkw
        · obtain ⟨w, rest', hmap, heq⟩ := (lowerBeginsWith_iff _ _).mp hkw
          refine ⟨rest.takeWhile jsIsSpace, w, rest', "licence".toList,
            by simp [headingKw], hws, hmap, ?_⟩
          rw [List.append_assoc, ← heq, ← hsplit]
        · obtain ⟨w, rest', hmap, heq⟩ := (lowerBeginsWith_iff _ _).mp hkw
          refine ⟨rest.takeWhile jsIsSpace, w, rest', "legal".toList,
            by simp [headingKw], hws, hmap, ?_⟩
          rw [List.append_assoc, ← heq, ← hsplit]
  · rintro ⟨ws, w, rest, kw, hkw, hws, hmap, rfl⟩
    simp only [headingKw, List.mem_cons, List.not_mem_nil, or_false] at hkw
    have hkwne : kw ≠ [] ∧ kw.head? = some 'l' := by
      rcases hkw with rfl | rfl <;> exact ⟨by simp, by rfl⟩
    obtain ⟨w0, w', rfl⟩ : ∃ w0 w', w = w0 :: w' := by
      cases w with
      | nil =>
        exfalso
        exact hkwne.1 (by simpa using hmap.symm)
      | cons w0 w' => exact ⟨w0, w', rfl⟩
    have hw0 : w0.toLower = 'l' := by
      have h2 := hkwne.2
      rw [← hmap] at h2
      simp only [List.map_cons, List.head?_cons, Option.some.injEq] at h2
      exact h2
    have hw0ns : jsIsSpace w0 = false := by
      cases hx : jsIsSpace w0 with
      | false => rfl
      | true =>
        have h3 := jsIsSpace_toLower w0 hx
        rw [hw0] at h3
        rw [← h3] at hx
        exact absurd hx (by decide)
    have hdw : ((ws ++ (w0 :: w') ++ rest).dropWhile jsIsSpace) =
        (w0 :: w') ++ rest := by
      rw [List.append_assoc, dropWhile_append_all _ ws _ hws]
      simp [List.dropWhile_cons, hw0ns]
    have hbw : lowerBeginsWith kw ((w0 :: w') ++ rest) = true :=
      (lowerBeginsWith_iff _ _).mpr ⟨w0 :: w', rest, hmap, rfl⟩
    simp only [headingCheck, hdw]
    rcases hkw with rfl | rfl
    · simp only [Bool.and_eq_true, Bool.or_eq_true, decide_eq_true_eq]
      exact ⟨⟨trivial, trivial⟩, Or.inl (by simpa using hbw)⟩
    · simp only [Bool.and_eq_true, Bool.or_eq_true, decide_eq_true_eq]
      exact ⟨⟨trivial, trivial⟩, Or.inr (by simpa using hbw)⟩

/-- C8 counterexample: the source regex spells the heading keyword
`Licence`; a README whose heading uses the claimed spelling `License`
carries a heading in the claim's sense, yet nothing is extracted. -/
theorem readme_heading_spelling_counterexample :
    headingAtIn ["license".toList, "legal".toList]
      ("## License\nMIT License".toList) ∧
    extractReadmeLicenseSection ("## License\nMIT License".toList) = none := by
  constructor
  · refine ⟨[' '], "License".toList, "\nMIT License".toList, "license".toList,
      by simp, ?_, by decide, by decide⟩
    intro c hc
    simp only [List.mem_singleton] at hc
    subst hc
    decide
  · rfl

/-- C8 (amended): the text extracted from a README is the suffix starting
at the leftmost occurrence of a heading `##`, optional whitespace, then
`Licence` or `Legal` case-insensitively — the source spells the keyword
`Licence`, not `License` — extending to the end of the file; when both a
README license section and a LICENSE file exist, the two texts are
concatenated (with a newline between). -/
theorem readme_license_extraction_spec (content : List Char) (dir : CloneDir) :
    (∀ sec, extractReadmeLicenseSection content = some sec →
      ∃ i, headingAtIn headingKw (content.drop i) ∧
        (∀ j, j < i → ¬ headingAtIn headingKw (content.drop j)) ∧
        sec = content.drop i) ∧
    (extractReadmeLicenseSection content = none →
      ∀ i, ¬ headingAtIn headingKw (content.drop i)) ∧
    (∀ rf lf sec,
      (dir.files.filter (fun f => readmeNameMatches f.1)).head? = some rf →
      extractReadmeLicenseSection rf.2 = some sec →
      (dir.files.filter (fun f => licenseNameMatches f.1)).head? = some lf →
      extractLicenseInfo dir = some (sec ++ '\n' :: lf.2)) := by
  refine ⟨?_, ?_, ?_⟩
  · intro sec h
    obtain ⟨i, hi, hb⟩ := firstSome_eq_some _ _ _ h
    by_cases hch : headingCheck (content.drop i) = true
    · rw [if_pos hch] at hi
      refine ⟨i, (headingCheck_iff _).mp hch, ?_, (Option.some.inj hi).symm⟩
      intro j hj hpat
      have hc2 := (headingCheck_iff _).mpr hpat
      have hb2 := hb j hj
      rw [if_pos hc2] at hb2
      exact absurd hb2 (by simp)
    · rw [if_neg hch] at hi
      exact absurd hi (by simp)
  · intro h i hpat
    rw [extractReadmeLicenseSection, firstSome_eq_none_iff] at h
    have hnone := h i
    have := (headingCheck_iff _).mpr hpat
    rw [if_pos this] at hnone
    exact absurd hnone (by simp)
  · intro rf lf sec h1 h2 h3
    cases hf1 : dir.files.filter (fun f => readmeNameMatches f.1) with
    | nil => rw [hf1] at h1; exact absurd h1 (by simp)
    | cons a t =>
      rw [hf1] at h1
      simp only [List.head?_cons, Option.some.injEq] at h1
      subst h1
      cases hf2 : dir.files.filter (fun f => licenseNameMatches f.1) with
      | nil => rw [hf2] at h3; exact absurd h3 (by simp)
      | cons b t2 =>
        rw [hf2] at h3
        simp only [List.head?_cons, Option.some.injEq] at h3
        subst h3
        simp [extractLicenseInfo, hf1, hf2, h2]

/-- Witness for C8 (amended) at a concrete README. -/
theorem readme_license_extraction_spec_witness :
    ∃ i, headingAtIn headingKw (("## Licence\nMIT".toList).drop i) ∧
      (∀ j, j < i → ¬ headingAtIn headingKw (("## Licence\nMIT".toList).drop j)) ∧
      "## Licence\nMIT".toList = ("## Licence\nMIT".toList).drop i :=
  (readme_license_extraction_spec ("## Licence\nMIT".toList) ⟨[]⟩).1 _ (by rfl)

/-! ## Characterization of the license allow-list test (claim C3) -/

/-- The claim-level reading of one alternation branch hitting the text
somewhere: at some position, every pattern character either is the
wildcard dot over a non-line-terminator or agrees case-insensitively. -/
def wildcardOccurs (id s : List Char) : Prop :=
  ∃ i, patMatchesAt id (s.drop i) = true

/-- Modelling the claim wording: the identifier occurs in the text as a
contiguous case-insensitive substring. -/
def containsCI (id s : List Char) : Bool :=
  (List.range (s.length + 1)).any
    (fun i => ((s.drop i).take id.length).map Char.toLower == id.map Char.toLower)

theorem licenseRegexHit_iff (s : List Char) :
    licenseRegexHit s = true ↔ ∃ id ∈ compatibleLicenses, wildcardOccurs id s := by
  unfold licenseRegexHit
  rw [Option.isSome_iff_ne_none, Ne, firstSome_eq_none_iff]
  push_neg
  constructor
  · rintro ⟨i, hi⟩
    by_cases hany : compatibleLicenses.any (fun p => patMatchesAt p (s.drop i)) = true
    · obtain ⟨id, hmem, hmatch⟩ := List.any_eq_true.mp hany
      exact ⟨id, hmem, i, hmatch⟩
    · exact absurd (by simp [hany]) hi
  · rintro ⟨id, hmem, i, hmatch⟩
    refine ⟨i, ?_⟩
    have hany : compatibleLicenses.any (fun p => patMatchesAt p (s.drop i)) = true :=
      List.any_eq_true.mpr ⟨id, hmem, hmatch⟩
    simp [hany]

theorem patMatchesAt_of_lower_eq (id : List Char) :
    ∀ w rest : List Char, w.map Char.toLower = id.map Char.toLower →
      patMatchesAt id (w ++ rest) = true := by
  induction id with
  | nil => intro w rest _; simp [patMatchesAt]
  | cons p ps ih =>
    intro w rest hmap
    cases w with
    | nil => simp at hmap
    | cons c w' =>
      simp only [List.map_cons, List.cons.injEq] at hmap
      obtain ⟨h1, h2⟩ := hmap
      simp only [List.cons_append, patMatchesAt, Bool.and_eq_true]
      refine ⟨?_, ih w' rest h2⟩
      simp [patCharOk, h1]

theorem containsCI_wildcardOccurs (id s : List Char)
    (h : containsCI id s = true) : wildcardOccurs id s := by
  unfold containsCI at h
  obtain ⟨i, _, hcheck⟩ := List.any_eq_true.mp h
  rw [beq_iff_eq] at hcheck
  refine ⟨i, ?_⟩
  have hsplit : s.drop i = (s.drop i).take id.length ++ (s.drop i).drop id.length :=
    (List.take_append_drop _ _).symm
  rw [hsplit]
  exact patMatchesAt_of_lower_eq id _ _ hcheck

/-- C3 (amended): the License score is `1` exactly when the text matches
some allow-listed identifier as a case-insensitive regex alternation in
which the unescaped dot of the identifier matches any single character (so
e.g. a text containing `GPL-2X0` also scores 1); containing an identifier
as a case-insensitive substring is sufficient; otherwise the score is `0`;
and the evaluator scores `-1` exactly when the extraction yields no text
or the JS-falsy empty text. -/
theorem license_check_spec (s : List Char) (rem : ℕ) (dir : CloneDir) :
    (checkLicenseCompatibility s = 1 ↔
      ∃ id ∈ compatibleLicenses, wildcardOccurs id s) ∧
    (checkLicenseCompatibility s = 0 ↔
      ¬ ∃ id ∈ compatibleLicenses, wildcardOccurs id s) ∧
    ((∃ id ∈ compatibleLicenses, containsCI id s = true) →
      checkLicenseCompatibility s = 1) ∧
    (extractLicenseInfo dir = none →
      licenseEvaluate rem (Except.ok dir) = (Except.ok (-1), ["clone"])) ∧
    (extractLicenseInfo dir = some [] →
      licenseEvaluate rem (Except.ok dir) = (Except.ok (-1), ["clone"])) ∧
    (∀ str, extractLicenseInfo dir = some str → str ≠ [] →
      licenseEvaluate rem (Except.ok dir) =
        (Except.ok (checkLicenseCompatibility str), ["clone"])) := by
  have hone : checkLicenseCompatibility s = 1 ↔ licenseRegexHit s = true := by
    unfold checkLicenseCompatibility
    by_cases hhit : licenseRegexHit s = true
    · simp [hhit]
    · simp only [hhit, if_false]
      constructor
      · intro h; exact absurd h (by norm_num)
      · intro h; exact absurd h (by simp)
  refine ⟨hone.trans (licenseRegexHit_iff s), ?_, ?_, ?_, ?_, ?_⟩
  · unfold checkLicenseCompatibility
    by_cases hhit : licenseRegexHit s = true
    · simp only [hhit, if_true]
      constructor
      · intro h; exact absurd h (by norm_num)
      · intro h; exact absurd ((licenseRegexHit_iff s).mp hhit) h
    · simp only [hhit, if_false]
      constructor
      · intro _ hcon
        exact hhit ((licenseRegexHit_iff s).mpr hcon)
      · intro _; rfl
  · rintro ⟨id, hmem, hcont⟩
    exact hone.mpr ((licenseRegexHit_iff s).mpr
      ⟨id, hmem, containsCI_wildcardOccurs id s hcont⟩)
  · intro h
    simp [licenseEvaluate, h]
  · intro h
    simp [licenseEvaluate, h]
  · intro str h hne
    simp [licenseEvaluate, h, hne]

/-- Witness for C3 (amended) at concrete inputs. -/
theorem license_check_spec_witness :
    checkLicenseCompatibility ("MIT License".toList) = 1 :=
  (license_check_spec ("MIT License".toList) 0 ⟨[]⟩).2.2.1
    ⟨"MIT".toList, by simp [compatibleLicenses], by rfl⟩

/-- C3 counterexample: the identifiers are joined into a regex without
escaping, so the dot in `GPL-2.0` matches any character: the text
`GPL-2X0` scores 1 though it contains no allow-listed identifier as a
case-insensitive substring; and a present-but-empty LICENSE file yields
`-1`, not the `0` the claimed biconditional would give. -/
theorem license_wildcard_dot_counterexample :
    checkLicenseCompatibility ("GPL-2X0".toList) = 1 ∧
    (compatibleLicenses.all (fun id => !(containsCI id ("GPL-2X0".toList)))) = true ∧
    licenseEvaluate 0 (Except.ok ⟨[("LICENSE".toList, [])]⟩) =
      (Except.ok (-1), ["clone"]) ∧
    ((-1 : ℚ) ≠ 0 ∧ (1 : ℚ) ≠ 0) := by
  refine ⟨?_, by rfl, ?_, by norm_num, by norm_num⟩
  · have hhit : licenseRegexHit ("GPL-2X0".toList) = true := by rfl
    unfold checkLicenseCompatibility
    rw [hhit]
    norm_num
  · rfl

/-! ## Claims C4, C5, C6 -/

/-- C6: with a successfully fetched page of bug-labeled issues, an empty
page scores exactly 1; a nonempty page scores `1 - open / total`, which
lies in `[0, 1]`; a fetch failure (including an invalid URL throwing
before the fetch) scores `-1`. -/
theorem correctness_score_spec (data : List Issue) (rem : ℕ) (url : List Char)
    (hrem : 0 < rem) (hurl : (jsGithubUrlMatch url).isSome = true) :
    (data = [] → calculateCorrectness (Except.ok data) = 1) ∧
    (data ≠ [] →
      calculateCorrectness (Except.ok data) =
        1 - ((openBugCount data : ℚ) / (data.length : ℚ)) ∧
      0 ≤ calculateCorrectness (Except.ok data) ∧
      calculateCorrectness (Except.ok data) ≤ 1) ∧
    calculateCorrectness (Except.error ()) = -1 ∧
    (∀ fetch, correctnessEvaluate rem url fetch =
      (Except.ok (calculateCorrectness fetch), ["listIssues"])) := by
  refine ⟨?_, ?_, rfl, ?_⟩
  · rintro rfl; rfl
  · intro hne
    have hlen : data.length ≠ 0 := fun h => hne (List.length_eq_zero.mp h)
    have hform : calculateCorrectness (Except.ok data) =
        1 - ((openBugCount data : ℚ) / (data.length : ℚ)) := by
      simp [calculateCorrectness, hlen]
    have hle : (openBugCount data : ℚ) ≤ (data.length : ℚ) := by
      exact_mod_cast List.length_filter_le _ _
    have hpos : (0 : ℚ) < (data.length : ℚ) := by
      exact_mod_cast Nat.pos_of_ne_zero hlen
    have hq0 : 0 ≤ (openBugCount data : ℚ) / (data.length : ℚ) := by positivity
    have hq1 : (openBugCount data : ℚ) / (data.length : ℚ) ≤ 1 := by
      rw [div_le_one hpos]; exact hle
    refine ⟨hform, ?_, ?_⟩ <;> rw [hform] <;> linarith
  · intro fetch
    have hrem' : rem ≠ 0 := Nat.pos_iff_ne_zero.mp hrem
    obtain ⟨p, hp⟩ := Option.isSome_iff_exists.mp hurl
    simp [correctnessEvaluate, hrem', hp]

/-- Witness for C6 at concrete inputs. -/
theorem correctness_score_spec_witness :
    calculateCorrectness (Except.error ()) = -1 ∧
    calculateCorrectness (Except.ok ([] : List Issue)) = 1 :=
  have h := correctness_score_spec [] 1 ("https://github.com/o/r".toList)
    (by norm_num) (by rfl)
  ⟨h.2.2.1, h.1 rfl⟩

/-- C4 counterexample: with the rate limit exhausted, Ramp-Up still issues
its root `getContent` call and returns the accumulated score 0 (not -1),
and License still issues the clone — neither consults the rate limit. -/
theorem rate_limit_short_circuit_counterexample :
    (rampUpEvaluate 0 ("https://github.com/o/r".toList) (Except.error ())).2 = 1 ∧
    (rampUpEvaluate 0 ("https://github.com/o/r".toList) (Except.error ())).1 =
      Except.ok 0 ∧
    (Except.ok (0 : ℚ) : Except Unit ℚ) ≠ Except.ok (-1) ∧
    (licenseEvaluate 0 (Except.error ())).2 = ["clone"] := by
  have hurl : rampUpUrlMatch ("https://github.com/o/r".toList) =
      some ("o".toList, "r".toList) := by rfl
  refine ⟨?_, ?_, ?_, rfl⟩
  · simp only [rampUpEvaluate, hurl]
  · simp only [rampUpEvaluate, hurl]
    norm_num
  · intro hcon
    have := Except.ok.inj hcon
    norm_num at this

/-- C4 (amended): only Bus Factor and Correctness read the rate-limit
status at the start of evaluate and short-circuit to `-1` with no further
remote calls when `remaining = 0`; Ramp-Up and License ignore the rate
limit entirely (their behavior does not depend on it): License always
issues the clone and Ramp-Up issues its root listing call whenever its URL
parses. -/
theorem rate_limit_check_per_evaluator (rem rem' : ℕ) (url : List Char)
    (cf : Except Unit (List (String × ℕ))) (isf : Except Unit (List Issue))
    (root : Except Unit RTree) (clone : Except Unit CloneDir) (hrem : rem = 0) :
    busFactorEvaluate rem url cf = (Except.ok (some (-1)), []) ∧
    correctnessEvaluate rem url isf = (Except.ok (-1), []) ∧
    rampUpEvaluate rem url root = rampUpEvaluate rem' url root ∧
    licenseEvaluate rem clone = licenseEvaluate rem' clone ∧
    (licenseEvaluate rem clone).2 = ["clone"] ∧
    ((rampUpUrlMatch url).isSome = true → 1 ≤ (rampUpEvaluate rem url root).2) := by
  subst hrem
  refine ⟨by simp [busFactorEvaluate], by simp [correctnessEvaluate], rfl, rfl, ?_, ?_⟩
  · cases clone with
    | error e => rfl
    | ok dir =>
      simp only [licenseEvaluate]
      cases extractLicenseInfo dir <;> rfl
  · intro h
    obtain ⟨p, hp⟩ := Option.isSome_iff_exists.mp h
    cases root with
    | error e => simp [rampUpEvaluate, hp]
    | ok t =>
      simp only [rampUpEvaluate, hp]
      omega

/-- Witness for C4 (amended) at concrete inputs. -/
theorem rate_limit_check_per_evaluator_witness :
    busFactorEvaluate 0 ("https://github.com/o/r".toList) (Except.ok []) =
      (Except.ok (some (-1)), []) :=
  (rate_limit_check_per_evaluator 0 3 ("https://github.com/o/r".toList)
    (Except.ok []) (Except.ok []) (Except.error ()) (Except.error ()) rfl).1

/-- C5 counterexample: a commit-fetch failure makes Bus Factor evaluate
end in an uncaught exception rather than `-1`, and a root-listing failure
makes Ramp-Up return 0, not `-1`. -/
theorem fetch_failure_counterexample :
    busFactorEvaluate 100 ("https://github.com/o/r".toList) (Except.error ()) =
      (Except.error (), ["listCommits"]) ∧
    (Except.error () : Except Unit (Option ℚ)) ≠ Except.ok (some (-1)) ∧
    (rampUpEvaluate 100 ("https://github.com/o/r".toList) (Except.error ())).1 =
      Except.ok 0 ∧
    (0 : ℚ) ≠ -1 := by
  have hurl : jsGithubUrlMatch ("https://github.com/o/r".toList) =
      some ("o".toList, "r".toList) := by rfl
  have hurl2 : rampUpUrlMatch ("https://github.com/o/r".toList) =
      some ("o".toList, "r".toList) := by rfl
  refine ⟨?_, by simp, ?_, by norm_num⟩
  · simp only [busFactorEvaluate, hurl]
    norm_num
  · simp only [rampUpEvaluate, hurl2]
    norm_num

/-- C5 (amended): a remote fetch failure during evaluation is caught and
scored `-1` by Correctness and License; Ramp-Up catches it locally but
returns the checklist score accumulated so far (0 when the root listing
fails), not `-1`; Bus Factor does not catch it at all, so the failure
escapes evaluate as an exception. -/
theorem fetch_failure_handling (rem : ℕ) (url : List Char)
    (hrem : rem ≠ 0) (hurl : (jsGithubUrlMatch url).isSome = true)
    (hurl2 : (rampUpUrlMatch url).isSome = true) :
    busFactorEvaluate rem url (Except.error ()) =
      (Except.error (), ["listCommits"]) ∧
    correctnessEvaluate rem url (Except.error ()) =
      (Except.ok (-1), ["listIssues"]) ∧
    licenseEvaluate rem (Except.error ()) = (Except.ok (-1), ["clone"]) ∧
    (rampUpEvaluate rem url (Except.error ())).1 = Except.ok 0 ∧
    (rampUpEvaluate rem url (Except.error ())).1 ≠ Except.error () := by
  obtain ⟨p, hp⟩ := Option.isSome_iff_exists.mp hurl
  obtain ⟨p2, hp2⟩ := Option.isSome_iff_exists.mp hurl2
  refine ⟨?_, ?_, rfl, ?_, ?_⟩
  · simp [busFactorEvaluate, hrem, hp]
  · simp [correctnessEvaluate, hrem, hp, calculateCorrectness]
  · simp [rampUpEvaluate, hp2]
  · simp [rampUpEvaluate, hp2]

/-- Witness for C5 (amended) at concrete inputs. -/
theorem fetch_failure_handling_witness :
    busFactorEvaluate 1 ("https://github.com/o/r".toList) (Except.error ()) =
      (Except.error (), ["listCommits"]) :=
  (fetch_failure_handling 1 ("https://github.com/o/r".toList)
    (by norm_num) (by rfl) (by rfl)).1
